import Mathlib

/-!
Verification of the modgraph core: the graph of squares modulo N
(`graph::connect`, `graph::partition`, `graph::traverse`, `graph::check_node`
from `graph.cpp`), the constructor's modulus check (`graph::graph`), and the
force-field of the layout engine (`minimizer.cpp`: `calculate_factors`,
`attract`, `repulsion`, `edge_attract`, `sum_attract`, `factor_attract`,
`force_and_pot`, `net_force_and_pot`).

C++ `double` arithmetic is embedded as real arithmetic; 3-vectors
(`Eigen::Vector3d`) as the structure `Vec3`; `std::vector`s as lists;
`std::set<int>` as `Finset ℕ`; code that can throw returns `Except String`.
-/

namespace Modgraph

/-! ## 3-vectors: embedding of Eigen::Vector3d -/

/-- A vector in ℝ³, standing for `Eigen::Vector3d`. -/
@[ext]
structure Vec3 where
  x : ℝ
  y : ℝ
  z : ℝ

namespace Vec3

instance : Zero Vec3 := ⟨⟨0, 0, 0⟩⟩
instance : Add Vec3 := ⟨fun a b => ⟨a.x + b.x, a.y + b.y, a.z + b.z⟩⟩
instance : Neg Vec3 := ⟨fun a => ⟨-a.x, -a.y, -a.z⟩⟩
instance : Sub Vec3 := ⟨fun a b => ⟨a.x - b.x, a.y - b.y, a.z - b.z⟩⟩
instance : SMul ℝ Vec3 := ⟨fun c a => ⟨c * a.x, c * a.y, c * a.z⟩⟩

@[simp] theorem zero_x : (0 : Vec3).x = 0 := rfl
@[simp] theorem zero_y : (0 : Vec3).y = 0 := rfl
@[simp] theorem zero_z : (0 : Vec3).z = 0 := rfl
@[simp] theorem add_x (a b : Vec3) : (a + b).x = a.x + b.x := rfl
@[simp] theorem add_y (a b : Vec3) : (a + b).y = a.y + b.y := rfl
@[simp] theorem add_z (a b : Vec3) : (a + b).z = a.z + b.z := rfl
@[simp] theorem neg_x (a : Vec3) : (-a).x = -a.x := rfl
@[simp] theorem neg_y (a : Vec3) : (-a).y = -a.y := rfl
@[simp] theorem neg_z (a : Vec3) : (-a).z = -a.z := rfl
@[simp] theorem sub_x (a b : Vec3) : (a - b).x = a.x - b.x := rfl
@[simp] theorem sub_y (a b : Vec3) : (a - b).y = a.y - b.y := rfl
@[simp] theorem sub_z (a b : Vec3) : (a - b).z = a.z - b.z := rfl
@[simp] theorem smul_x (c : ℝ) (a : Vec3) : (c • a).x = c * a.x := rfl
@[simp] theorem smul_y (c : ℝ) (a : Vec3) : (c • a).y = c * a.y := rfl
@[simp] theorem smul_z (c : ℝ) (a : Vec3) : (c • a).z = c * a.z := rfl

instance : AddCommGroup Vec3 where
  add_assoc a b c := by ext <;> simp <;> ring
  zero_add a := by ext <;> simp
  add_zero a := by ext <;> simp
  add_comm a b := by ext <;> simp <;> ring
  neg_add_cancel a := by ext <;> simp
  sub_eq_add_neg a b := by ext <;> simp <;> ring
  nsmul := nsmulRec
  zsmul := zsmulRec

instance : Module ℝ Vec3 where
  one_smul a := by ext <;> simp
  mul_smul c d a := by ext <;> simp <;> ring
  smul_zero c := by ext <;> simp
  smul_add c a b := by ext <;> simp <;> ring
  add_smul c d a := by ext <;> simp <;> ring
  zero_smul a := by ext <;> simp

end Vec3

/-- Euclidean norm of a `Vec3`: embedding of `Eigen`'s `.norm()`. -/
noncomputable def norm3 (v : Vec3) : ℝ := Real.sqrt (v.x ^ 2 + v.y ^ 2 + v.z ^ 2)

theorem norm3_nonneg (v : Vec3) : 0 ≤ norm3 v := Real.sqrt_nonneg _

theorem norm3_eq_zero_iff (v : Vec3) : norm3 v = 0 ↔ v = 0 := by
  unfold norm3
  constructor
  · intro h
    have h0 : v.x ^ 2 + v.y ^ 2 + v.z ^ 2 ≤ 0 := Real.sqrt_eq_zero'.mp h
    have hx : v.x = 0 := by nlinarith [sq_nonneg v.x, sq_nonneg v.y, sq_nonneg v.z]
    have hy : v.y = 0 := by nlinarith [sq_nonneg v.x, sq_nonneg v.y, sq_nonneg v.z]
    have hz : v.z = 0 := by nlinarith [sq_nonneg v.x, sq_nonneg v.y, sq_nonneg v.z]
    ext <;> simp [hx, hy, hz]
  · intro h
    subst h
    simp

theorem norm3_neg (v : Vec3) : norm3 (-v) = norm3 v := by
  simp only [norm3, Vec3.neg_x, Vec3.neg_y, Vec3.neg_z]
  ring_nf

/-! ## Force field: embedding of minimizer.cpp

Each C++ member function below both returns a force and increments the
member `potential_`; it is embedded as a pure function returning the pair
(force, potential increment).  The default member values from
minimizer.hpp become the constants `edge_attract_`, `sum_attract_`,
`factor_attract_`. -/

/-- Default of member `edge_attract_` in minimizer.hpp. -/
noncomputable def edge_attract_ : ℝ := 1.5

/-- Default of member `sum_attract_` in minimizer.hpp. -/
noncomputable def sum_attract_ : ℝ := 15.0

/-- Default of member `factor_attract_` in minimizer.hpp. -/
noncomputable def factor_attract_ : ℝ := 150.0

/-- The successor map established by `graph::connect`:
`nodes_[i].next = (i*i) % m`. -/
def nextF (m i : ℕ) : ℕ := (i * i) % m

/-- Embedding of `calculate_factors` (minimizer.cpp): starts from `{0, 1}`
and appends every `i` with `2 ≤ i ≤ m/2` dividing `m`, in increasing
order. -/
def calculate_factors (m : ℕ) : List ℕ :=
  [0, 1] ++ (List.range (m / 2 + 1)).filter (fun i => 2 ≤ i ∧ m % i = 0)

/-- Embedding of `minimizer::attract`: spring force `u * k * r`, potential
increment `0.5 * k * r * r`. -/
noncomputable def attract (k : ℝ) (u : Vec3) (r : ℝ) : Vec3 × ℝ :=
  ((k * r) • u, 0.5 * k * r * r)

/-- Embedding of `minimizer::repulsion`: force `-u / (r*r)`, potential
increment `1.0 / r`. -/
noncomputable def repulsion (u : Vec3) (r : ℝ) : Vec3 × ℝ :=
  ((-(1 / (r * r))) • u, 1 / r)

/-- Embedding of `minimizer::edge_attract`. -/
noncomputable def edge_attract (m i j : ℕ) (u : Vec3) (r : ℝ) : Vec3 × ℝ :=
  if nextF m i = j ∨ nextF m j = i then attract (1 / edge_attract_) u r
  else (0, 0)

/-- Embedding of `minimizer::sum_attract`: fold over the factor list,
accumulating force and potential. -/
noncomputable def sum_attract (m i j : ℕ) (u : Vec3) (r : ℝ) : Vec3 × ℝ :=
  let sum := (i + j) % m
  let c : ℝ := 1 / sum_attract_
  let b : ℝ := c / m
  (calculate_factors m).foldl
    (fun (acc : Vec3 × ℝ) (n : ℕ) =>
      let a : ℝ := n * b
      let acc1 := if sum = n then acc + attract (if n = 0 then c else a) u r else acc
      if m - sum = n then acc1 + attract a u r else acc1)
    (0, 0)

/-- Embedding of `minimizer::factor_attract`: fold over the factor list,
accumulating force and potential. -/
noncomputable def factor_attract (m i j : ℕ) (u : Vec3) (r : ℝ) : Vec3 × ℝ :=
  let c : ℝ := 1 / factor_attract_
  let b : ℝ := c / m
  (calculate_factors m).foldl
    (fun (acc : Vec3 × ℝ) (n : ℕ) =>
      let a : ℝ := n * b
      let acc1 := if i = n ∨ j = n then acc + attract (if n = 0 then c else a) u r else acc
      if i = m - n ∨ j = m - n then acc1 + attract a u r else acc1)
    (0, 0)

/-- Embedding of `minimizer::force_and_pot`: force on node `i` from node
`j`, and the pair's potential contribution. -/
noncomputable def force_and_pot (m i j : ℕ) (pos : ℕ → Vec3) : Vec3 × ℝ :=
  if i = j then (0, 0)
  else
    let d := pos j - pos i
    let r := norm3 d
    let u := (1 / r) • d
    repulsion u r + edge_attract m i j u r + sum_attract m i j u r +
      factor_attract m i j u r

/-- The pairwise force table filled by `minimizer::net_force_and_pot`:
entry `(i, j)` holds the force on node `i` from node `j`; the loop fills
`(i, j)` for `i < j` and stores the negation at `(j, i)`; the diagonal
stays zero. -/
noncomputable def forcesMat (m : ℕ) (pos : ℕ → Vec3) (i j : ℕ) : Vec3 :=
  if i < j then (force_and_pot m i j pos).1
  else if j < i then -(force_and_pot m j i pos).1
  else 0

/-- Row sum of the force table: the net force on node `i`
(`net_forces_ = forces_.rowwise().sum()`). -/
noncomputable def netForce (m : ℕ) (pos : ℕ → Vec3) (i : ℕ) : Vec3 :=
  ∑ j ∈ Finset.range m, forcesMat m pos i j

/-- Total potential accumulated by `minimizer::net_force_and_pot`: the sum
over all unordered pairs `i < j`. -/
noncomputable def potential (m : ℕ) (pos : ℕ → Vec3) : ℝ :=
  ∑ i ∈ Finset.range m, ∑ j ∈ Finset.Ico (i + 1) m, (force_and_pot m i j pos).2

/-- Potential of the repulsion terms alone. -/
noncomputable def repulsionPotential (m : ℕ) (pos : ℕ → Vec3) : ℝ :=
  ∑ i ∈ Finset.range m, ∑ j ∈ Finset.Ico (i + 1) m, 1 / norm3 (pos j - pos i)

/-- Instrumentation of the division sites `u = d / r` and `-u / (r*r)` in
`minimizer::force_and_pot`: the code divides by a zero distance exactly
when `i ≠ j` (the only guarded case is `i == j`) and the two positions
coincide. -/
def force_divzero (m i j : ℕ) (pos : ℕ → Vec3) : Prop :=
  i ≠ j ∧ norm3 (pos j - pos i) = 0

/-! ## Graph model: embedding of `graph::connect` (graph.cpp)

A `node` carries the fields of the C++ `node` struct (`next` initialized
to -1, `prev` empty, `complement`); the 2021 variant's mutable `subg`
field (-1 = unassigned) is modelled by the `subg` map of `PSt` below,
indexed by the same node offsets. -/

/-- The C++ `node` struct (node.hpp). -/
structure node where
  next : Int := -1
  prev : List ℕ := []
  complement : Int := -1

instance : Inhabited node := ⟨{}⟩

/-- In-place update of one list element (`nodes_[n] = f(nodes_[n])`);
out-of-range indices leave the list unchanged. -/
def lmodify {α : Type} : List α → ℕ → (α → α) → List α
  | [], _, _ => []
  | a :: t, 0, f => f a :: t
  | a :: t, n + 1, f => a :: lmodify t n f

@[simp] theorem lmodify_length {α : Type} (l : List α) (n : ℕ) (f : α → α) :
    (lmodify l n f).length = l.length := by
  induction l generalizing n with
  | nil => rfl
  | cons a t ih => cases n with
    | zero => rfl
    | succ n => simp [lmodify, ih]

theorem lmodify_getD_ne {α : Type} (l : List α) (n k : ℕ) (f : α → α) (d : α)
    (h : k ≠ n) : (lmodify l n f).getD k d = l.getD k d := by
  induction l generalizing n k with
  | nil => rfl
  | cons a t ih =>
    cases n with
    | zero => cases k with
      | zero => exact absurd rfl h
      | succ k => rfl
    | succ n => cases k with
      | zero => rfl
      | succ k =>
        show (a :: lmodify t n f).getD (k + 1) d = (a :: t).getD (k + 1) d
        simp only [List.getD_cons_succ]
        exact ih n k (by omega)

theorem lmodify_getD_self {α : Type} (l : List α) (n : ℕ) (f : α → α) (d : α)
    (h : n < l.length) : (lmodify l n f).getD n d = f (l.getD n d) := by
  induction l generalizing n with
  | nil => simp at h
  | cons a t ih =>
    cases n with
    | zero => rfl
    | succ n =>
      show (a :: lmodify t n f).getD (n + 1) d = f ((a :: t).getD (n + 1) d)
      simp only [List.getD_cons_succ]
      exact ih n (by simpa using h)

/-- The body of the loop in `graph::connect` for index `cur`:
`nodes_[cur].next = (cur*cur) % m; nodes_[nxt].prev.push_back(cur);`
and the `complement` assignment. -/
def connectStep (m : ℕ) (a : List node) (cur : ℕ) : List node :=
  let nxt := (cur * cur) % m
  let a1 := lmodify a cur (fun nd => { nd with next := (nxt : ℕ) })
  let a2 := lmodify a1 nxt (fun nd => { nd with prev := nd.prev ++ [cur] })
  let comp := m - cur
  if cur ≤ comp ∧ comp ≠ m then
    lmodify a2 cur (fun nd => { nd with complement := (comp : ℕ) })
  else
    lmodify a2 cur (fun nd => { nd with complement := -1 })

/-- Embedding of `graph::connect`: `m` default nodes
(`std::vector<node> nodes_(m)`), then the loop over `cur = 0 .. m-1`. -/
def connect (m : ℕ) : List node :=
  (List.range m).foldl (connectStep m) (List.replicate m {})

/-! ## Partitioner: embedding of `graph::partition` / `traverse` /
`check_node` (the 2021 graph.cpp) -/

/-- Mutable state of the partitioner: `subg k` is the `subg` field of
node `k` (-1 = unassigned), `subgraphs` is `graph::subgraphs_`
(`std::vector<std::set<int>>`). -/
structure PSt where
  subg : ℕ → Int
  subgraphs : List (Finset ℕ)

/-- The two assignments at the head of `graph::traverse`:
`n.subg = s_off; subgraphs_[s_off].insert(n_off);`. -/
def markNode (st : PSt) (n s : ℕ) : PSt :=
  { subg := fun k => if k = n then (s : ℕ) else st.subg k
    subgraphs := st.subgraphs.set s (insert n (st.subgraphs.getD s ∅)) }

/-- Which of the mutually recursive procedures is executing:
`check_node(n, s)`, `traverse(n, s)`, or traverse's loop
`for (prv : n.prev) check_node(prv, s)` with remaining list `l`. -/
inductive Call where
  | chk (n : ℕ)
  | trav (n : ℕ)
  | lst (l : List ℕ)

/-- `nodes_[n].next` as an index. -/
def gNext (g : List node) (n : ℕ) : ℕ := ((g.getD n default).next).toNat

/-- `nodes_[n].prev`. -/
def gPrev (g : List node) (n : ℕ) : List ℕ := (g.getD n default).prev

def conflictMsg : String := "conflict between subgraphs"

def fuelMsg : String := "fuel exhausted"

/-- One engine for the mutual recursion `graph::check_node` /
`graph::traverse` (and traverse's loop over `prev`), with explicit fuel
bounding the recursion depth.  The fuel is an artifact of the embedding:
the C++ recursion terminates because each `traverse` marks a previously
unmarked node, and the fuel passed by `partition` is proven never to run
out. -/
def partStep (g : List node) : ℕ → Call → ℕ → PSt → Except String PSt
  | 0, _, _, _ => .error fuelMsg
  | fuel + 1, .chk n, s, st =>
    if st.subg n = -1 then partStep g fuel (.trav n) s st
    else if st.subg n ≠ (s : ℕ) then .error conflictMsg
    else .ok st
  | fuel + 1, .trav n, s, st =>
    let st1 := markNode st n s
    match partStep g fuel (.chk (gNext g n)) s st1 with
    | .error e => .error e
    | .ok st2 => partStep g fuel (.lst (gPrev g n)) s st2
  | _ + 1, .lst [], _, st => .ok st
  | fuel + 1, .lst (p :: rest), s, st =>
    match partStep g fuel (.chk p) s st with
    | .error e => .error e
    | .ok st' => partStep g fuel (.lst rest) s st'

/-- Fuel passed to each top-level `traverse`; ample for the recursion
depth (see `partStep_ok`). -/
def FUEL (m : ℕ) : ℕ := (m + 4) * m + m + 1

/-- Embedding of `graph::partition`: scan offsets `0 .. m-1`; for each
still-unassigned node, push a fresh empty subgraph and `traverse` from it. -/
def partition (m : ℕ) : Except String PSt :=
  let g := connect m
  (List.range m).foldlM
    (fun st n =>
      if st.subg n = -1 then
        let s := st.subgraphs.length
        partStep g (FUEL m) (.trav n) s { st with subgraphs := st.subgraphs ++ [∅] }
      else pure st)
    { subg := fun _ => -1, subgraphs := [] }

/-! ## Constructor guard: `graph::graph(int m)` (the 2022 graph.cpp) -/

/-- Default of member `univ_attract_` (graph.hpp). -/
def univ_attract_ : ℚ := 50

/-- The checks at the head of `graph::graph(int m)`:
`if (m < 0) throw "illegal modulus";
if (univ_attract_ <= 1.0) throw "illegal universal attraction";`.
Returns `true` iff the constructor throws. -/
def graph_ctor_throws (m : Int) : Bool :=
  decide (m < 0) || decide (univ_attract_ ≤ 1)

/-! ## Characterization of `connect` -/

theorem replicate_getD {α : Type} (n i : ℕ) (a d : α) (h : i < n) :
    (List.replicate n a).getD i d = a := by
  induction n generalizing i with
  | zero => omega
  | succ n ih =>
    cases i with
    | zero => rfl
    | succ i => simpa [List.replicate_succ] using ih i (by omega)

theorem connectStep_length (m : ℕ) (a : List node) (cur : ℕ) :
    (connectStep m a cur).length = a.length := by
  dsimp only [connectStep]
  split <;> simp

theorem connectStep_getD_next (m : ℕ) (a : List node) (cur i : ℕ)
    (hi : i < a.length) (hcur : cur < a.length) :
    ((connectStep m a cur).getD i default).next =
      if i = cur then ((((cur * cur) % m : ℕ) : Int)) else (a.getD i default).next := by
  dsimp only [connectStep]
  have h1 : ∀ (b : List node) (n : ℕ) (v : Int) (k : ℕ), k < b.length →
      ((lmodify b n (fun nd => { nd with complement := v })).getD k default).next
        = (b.getD k default).next := by
    intro b n v k hk
    by_cases hkn : k = n
    · subst hkn; rw [lmodify_getD_self _ _ _ _ hk]
    · rw [lmodify_getD_ne _ _ _ _ _ hkn]
  have h2 : ∀ (b : List node) (n c : ℕ) (k : ℕ), k < b.length →
      ((lmodify b n (fun nd => { nd with prev := nd.prev ++ [c] })).getD k default).next
        = (b.getD k default).next := by
    intro b n c k hk
    by_cases hkn : k = n
    · subst hkn; rw [lmodify_getD_self _ _ _ _ hk]
    · rw [lmodify_getD_ne _ _ _ _ _ hkn]
  split
  · rw [h1 _ _ _ _ (by simpa using hi), h2 _ _ _ _ (by simpa using hi)]
    by_cases hic : i = cur
    · subst hic; rw [lmodify_getD_self _ _ _ _ hi]; simp
    · rw [lmodify_getD_ne _ _ _ _ _ hic, if_neg hic]
  · rw [h1 _ _ _ _ (by simpa using hi), h2 _ _ _ _ (by simpa using hi)]
    by_cases hic : i = cur
    · subst hic; rw [lmodify_getD_self _ _ _ _ hi]; simp
    · rw [lmodify_getD_ne _ _ _ _ _ hic, if_neg hic]

theorem connectStep_getD_prev (m : ℕ) (a : List node) (cur i : ℕ)
    (hi : i < a.length) (hlen : a.length = m) (hm : 0 < m) :
    ((connectStep m a cur).getD i default).prev =
      if i = (cur * cur) % m then (a.getD i default).prev ++ [cur]
      else (a.getD i default).prev := by
  dsimp only [connectStep]
  have hnxt : (cur * cur) % m < a.length := by
    rw [hlen]; exact Nat.mod_lt _ hm
  have h1 : ∀ (b : List node) (n : ℕ) (v : Int) (k : ℕ), k < b.length →
      ((lmodify b n (fun nd => { nd with complement := v })).getD k default).prev
        = (b.getD k default).prev := by
    intro b n v k hk
    by_cases hkn : k = n
    · subst hkn; rw [lmodify_getD_self _ _ _ _ hk]
    · rw [lmodify_getD_ne _ _ _ _ _ hkn]
  have h3 : ∀ (b : List node) (n : ℕ) (v : Int) (k : ℕ), k < b.length →
      ((lmodify b n (fun nd => { nd with next := v })).getD k default).prev
        = (b.getD k default).prev := by
    intro b n v k hk
    by_cases hkn : k = n
    · subst hkn; rw [lmodify_getD_self _ _ _ _ hk]
    · rw [lmodify_getD_ne _ _ _ _ _ hkn]
  split
  · rw [h1 _ _ _ _ (by simpa using hi)]
    by_cases hin : i = (cur * cur) % m
    · subst hin
      rw [lmodify_getD_self _ _ _ _ (by simpa using hnxt)]
      show ((lmodify a cur _).getD _ default).prev ++ [cur] = _
      rw [h3 _ _ _ _ hnxt, if_pos rfl]
    · rw [lmodify_getD_ne _ _ _ _ _ hin, h3 _ _ _ _ hi, if_neg hin]
  · rw [h1 _ _ _ _ (by simpa using hi)]
    by_cases hin : i = (cur * cur) % m
    · subst hin
      rw [lmodify_getD_self _ _ _ _ (by simpa using hnxt)]
      show ((lmodify a cur _).getD _ default).prev ++ [cur] = _
      rw [h3 _ _ _ _ hnxt, if_pos rfl]
    · rw [lmodify_getD_ne _ _ _ _ _ hin, h3 _ _ _ _ hi, if_neg hin]

theorem connect_spec (m : ℕ) (k : ℕ) (hk : k ≤ m) :
    ((List.range k).foldl (connectStep m) (List.replicate m ({} : node))).length = m ∧
    ∀ i, i < m →
      ((((List.range k).foldl (connectStep m) (List.replicate m {})).getD i default).next
        = if i < k then (((i * i) % m : ℕ) : Int) else -1) ∧
      (((List.range k).foldl (connectStep m) (List.replicate m {})).getD i default).prev
        = (List.range k).filter (fun j => (j * j) % m = i) := by
  induction k with
  | zero =>
    refine ⟨by simp, fun i hi => ?_⟩
    rw [List.range_zero, List.foldl_nil, replicate_getD _ _ _ _ hi]
    exact ⟨by simp, rfl⟩
  | succ k ih =>
    have hk' : k ≤ m := Nat.le_of_succ_le hk
    have hm : 0 < m := by omega
    obtain ⟨hlen, hspec⟩ := ih hk'
    rw [List.range_succ, List.foldl_append, List.foldl_cons, List.foldl_nil]
    set A := (List.range k).foldl (connectStep m) (List.replicate m ({} : node)) with hA
    have hkA : k < A.length := by rw [hlen]; omega
    refine ⟨by rw [connectStep_length, hlen], fun i hi => ?_⟩
    have hiA : i < A.length := by rw [hlen]; exact hi
    constructor
    · rw [connectStep_getD_next m A k i hiA hkA]
      by_cases hik : i = k
      · subst hik
        rw [if_pos rfl, if_pos (Nat.lt_succ_self _)]
      · rw [if_neg hik, (hspec i hi).1]
        by_cases h2 : i < k
        · rw [if_pos h2, if_pos (by omega)]
        · rw [if_neg h2, if_neg (by omega)]
    · rw [connectStep_getD_prev m A k i hiA hlen hm, (hspec i hi).2]
      rw [List.filter_append]
      by_cases hik : i = (k * k) % m
      · rw [if_pos hik]
        have : (List.range k).filter (fun j => (j * j) % m = i) ++ [k]
            = (List.range k).filter (fun j => (j * j) % m = i)
              ++ List.filter (fun j => decide ((j * j) % m = i)) [k] := by
          simp [hik.symm]
        rw [this]
      · rw [if_neg hik]
        have : List.filter (fun j => decide ((j * j) % m = i)) [k] = [] := by
          simp
          omega
        rw [this, List.append_nil]

theorem connect_length (m : ℕ) : (connect m).length = m :=
  (connect_spec m m le_rfl).1

theorem connect_next (m i : ℕ) (h : i < m) :
    ((connect m).getD i default).next = (((i * i) % m : ℕ) : Int) := by
  have := ((connect_spec m m le_rfl).2 i h).1
  rwa [if_pos h] at this

theorem connect_prev (m i : ℕ) (h : i < m) :
    ((connect m).getD i default).prev
      = (List.range m).filter (fun j => (j * j) % m = i) :=
  ((connect_spec m m le_rfl).2 i h).2

theorem gNext_connect (m n : ℕ) (h : n < m) :
    gNext (connect m) n = (n * n) % m := by
  unfold gNext
  rw [connect_next m n h]
  exact Int.toNat_natCast _

theorem gNext_connect_lt (m n : ℕ) (hm : 0 < m) (h : n < m) :
    gNext (connect m) n < m := by
  rw [gNext_connect m n h]
  exact Nat.mod_lt _ hm

theorem gPrev_connect_mem (m n j : ℕ) (h : n < m) :
    j ∈ gPrev (connect m) n ↔ j < m ∧ (j * j) % m = n := by
  unfold gPrev
  rw [connect_prev m n h]
  simp [List.mem_filter]

theorem gPrev_connect_len (m n : ℕ) (h : n < m) :
    (gPrev (connect m) n).length ≤ m := by
  unfold gPrev
  rw [connect_prev m n h]
  calc ((List.range m).filter _).length ≤ (List.range m).length :=
        List.length_filter_le _ _
    _ = m := List.length_range m

/-! ## Weak connectivity of the squaring digraph -/

/-- Undirected (weak) adjacency on `[0, m)`: `i` and `j` are joined by a
directed edge of the squaring map in one direction or the other. -/
def adj (m i j : ℕ) : Prop :=
  i < m ∧ j < m ∧ (nextF m i = j ∨ nextF m j = i)

theorem adj_symm {m i j : ℕ} (h : adj m i j) : adj m j i :=
  ⟨h.2.1, h.1, h.2.2.symm⟩

/-- Weak connectivity: reflexive-transitive closure of `adj`. -/
def conn (m : ℕ) : ℕ → ℕ → Prop := Relation.ReflTransGen (adj m)

theorem conn_refl (m i : ℕ) : conn m i i := Relation.ReflTransGen.refl

theorem conn_symm {m i j : ℕ} (h : conn m i j) : conn m j i :=
  Relation.ReflTransGen.symmetric (fun _ _ hab => adj_symm hab) h

theorem conn_trans {m i j k : ℕ} (h : conn m i j) (h' : conn m j k) :
    conn m i k := Relation.ReflTransGen.trans h h'

theorem conn_of_adj {m i j : ℕ} (h : adj m i j) : conn m i j :=
  Relation.ReflTransGen.single h

/-! ## Bookkeeping lemmas for the partitioner state -/

theorem set_getD_ne {α : Type} (l : List α) (s t : ℕ) (x d : α) (h : t ≠ s) :
    (l.set s x).getD t d = l.getD t d := by
  induction l generalizing s t with
  | nil => rfl
  | cons a tl ih =>
    cases s with
    | zero => cases t with
      | zero => exact absurd rfl h
      | succ t => rfl
    | succ s => cases t with
      | zero => rfl
      | succ t =>
        show (a :: tl.set s x).getD (t + 1) d = (a :: tl).getD (t + 1) d
        simp only [List.getD_cons_succ]
        exact ih s t (by omega)

theorem set_getD_self {α : Type} (l : List α) (s : ℕ) (x d : α)
    (h : s < l.length) : (l.set s x).getD s d = x := by
  induction l generalizing s with
  | nil => simp at h
  | cons a tl ih =>
    cases s with
    | zero => rfl
    | succ s =>
      show (a :: tl.set s x).getD (s + 1) d = x
      simp only [List.getD_cons_succ]
      exact ih s (by simpa using h)

theorem markNode_subg_self (st : PSt) (n s : ℕ) :
    (markNode st n s).subg n = ((s : ℕ) : Int) := by simp [markNode]

theorem markNode_subg_ne (st : PSt) (n s k : ℕ) (h : k ≠ n) :
    (markNode st n s).subg k = st.subg k := by simp [markNode, h]

theorem markNode_len (st : PSt) (n s : ℕ) :
    (markNode st n s).subgraphs.length = st.subgraphs.length := by
  simp [markNode]

theorem markNode_sets_ne (st : PSt) (n s : ℕ) (t : ℕ) (h : t ≠ s) :
    (markNode st n s).subgraphs.getD t ∅ = st.subgraphs.getD t ∅ := by
  simp only [markNode]
  exact set_getD_ne _ _ _ _ _ h

theorem markNode_sets_self (st : PSt) (n s : ℕ) (h : s < st.subgraphs.length) :
    (markNode st n s).subgraphs.getD s ∅ = insert n (st.subgraphs.getD s ∅) := by
  simp only [markNode]
  exact set_getD_self _ _ _ _ h

/-- Number of still-unassigned nodes: the termination measure of the C++
recursion. -/
def U (m : ℕ) (st : PSt) : ℕ :=
  ((Finset.range m).filter (fun k => st.subg k = -1)).card

theorem U_le (m : ℕ) (st : PSt) : U m st ≤ m := by
  calc U m st ≤ (Finset.range m).card := Finset.card_filter_le _ _
    _ = m := Finset.card_range m

theorem U_markNode (m : ℕ) (st : PSt) (n s : ℕ) (hn : n < m)
    (h : st.subg n = -1) : U m (markNode st n s) + 1 = U m st := by
  have hmem : n ∈ (Finset.range m).filter (fun k => st.subg k = -1) := by
    simp [Finset.mem_filter, Finset.mem_range, hn, h]
  have hset : (Finset.range m).filter (fun k => (markNode st n s).subg k = -1)
      = ((Finset.range m).filter (fun k => st.subg k = -1)).erase n := by
    ext k
    simp only [Finset.mem_filter, Finset.mem_range, Finset.mem_erase]
    constructor
    · intro ⟨hk, hsub⟩
      by_cases hkn : k = n
      · subst hkn
        rw [markNode_subg_self] at hsub
        omega
      · rw [markNode_subg_ne _ _ _ _ hkn] at hsub
        exact ⟨hkn, hk, hsub⟩
    · intro ⟨hkn, hk, hsub⟩
      rw [markNode_subg_ne _ _ _ _ hkn]
      exact ⟨hk, hsub⟩
  unfold U
  rw [hset, Finset.card_erase_of_mem hmem]
  have : 0 < ((Finset.range m).filter (fun k => st.subg k = -1)).card :=
    Finset.card_pos.mpr ⟨n, hmem⟩
  omega

theorem U_mono (m : ℕ) (st st' : PSt)
    (hmono : ∀ k, st.subg k ≠ -1 → st'.subg k ≠ -1) : U m st' ≤ U m st := by
  apply Finset.card_le_card
  intro k hk
  simp only [Finset.mem_filter, Finset.mem_range] at hk ⊢
  refine ⟨hk.1, ?_⟩
  by_contra hne
  exact (hmono k hne) hk.2

/-- Precondition under which the engine is entered: `traverse` is only ever
called on a still-unassigned node (from `check_node`'s first branch and
from `partition`). -/
def callPre (st : PSt) : Call → Prop
  | .trav n => st.subg n = -1
  | _ => True

/-- Marks only grow during a traversal round, existing marks are untouched,
new marks carry the current subgraph offset `s`, and subgraph sets other
than `s` are untouched (and their list keeps its length). -/
theorem partStep_mono (g : List node) (fuel : ℕ) :
    ∀ (c : Call) (s : ℕ) (st st' : PSt), callPre st c →
    partStep g fuel c s st = .ok st' →
    (∀ k, st.subg k ≠ -1 → st'.subg k = st.subg k) ∧
    (∀ k, st'.subg k ≠ st.subg k → st'.subg k = ((s : ℕ) : Int)) ∧
    st'.subgraphs.length = st.subgraphs.length ∧
    (∀ t : ℕ, t ≠ s → st'.subgraphs.getD t ∅ = st.subgraphs.getD t ∅) := by
  induction fuel with
  | zero =>
    intro c s st st' _ h
    simp [partStep] at h
  | succ fuel ih =>
    intro c s st st' hpre h
    cases c with
    | chk n =>
      simp only [partStep] at h
      split at h
      · -- unmarked: hand off to traverse
        rename_i hun
        exact ih (.trav n) s st st' hun h
      · split at h
        · simp at h
        · -- already marked with s: state unchanged
          rename_i hmk hsame
          cases h
          exact ⟨fun k _ => rfl, fun k hk => absurd rfl hk, rfl, fun t _ => rfl⟩
    | trav n =>
      simp only [partStep] at h
      have hun : st.subg n = -1 := hpre
      cases heq : partStep g fuel (.chk (gNext g n)) s (markNode st n s) with
      | error e => rw [heq] at h; simp at h
      | ok st2 =>
        rw [heq] at h
        obtain ⟨m1, m1', l1, s1⟩ :=
          ih (.chk (gNext g n)) s (markNode st n s) st2 (by trivial) heq
        obtain ⟨m2, m2', l2, s2⟩ := ih (.lst (gPrev g n)) s st2 st' (by trivial) h
        refine ⟨?_, ?_, ?_, ?_⟩
        · intro k hk
          have hkn : k ≠ n := fun he => by rw [he] at hk; exact hk hun
          have e0 : (markNode st n s).subg k = st.subg k := markNode_subg_ne _ _ _ _ hkn
          have e1 : st2.subg k = st.subg k := by rw [m1 k (by rw [e0]; exact hk), e0]
          rw [m2 k (by rw [e1]; exact hk), e1]
        · intro k hk
          by_cases h3 : st'.subg k = st2.subg k
          · by_cases h2 : st2.subg k = (markNode st n s).subg k
            · by_cases hkn : k = n
              · subst hkn
                rw [h3, h2, markNode_subg_self]
              · exact absurd (by rw [h3, h2, markNode_subg_ne _ _ _ _ hkn]) hk
            · rw [h3]
              exact m1' k h2
          · exact m2' k h3
        · rw [l2, l1, markNode_len]
        · intro t ht
          rw [s2 t ht, s1 t ht, markNode_sets_ne _ _ _ _ ht]
    | lst l =>
      cases l with
      | nil =>
        simp only [partStep] at h
        cases h
        exact ⟨fun k _ => rfl, fun k hk => absurd rfl hk, rfl, fun t _ => rfl⟩
      | cons p rest =>
        simp only [partStep] at h
        cases heq : partStep g fuel (.chk p) s st with
        | error e => rw [heq] at h; simp at h
        | ok stmid =>
          rw [heq] at h
          obtain ⟨m1, m1', l1, s1⟩ := ih (.chk p) s st stmid (by trivial) heq
          obtain ⟨m2, m2', l2, s2⟩ := ih (.lst rest) s stmid st' (by trivial) h
          refine ⟨?_, ?_, ?_, ?_⟩
          · intro k hk
            have e1 : stmid.subg k = st.subg k := m1 k hk
            rw [m2 k (by rw [e1]; exact hk), e1]
          · intro k hk
            by_cases h3 : st'.subg k = stmid.subg k
            · rw [h3]
              exact m1' k (fun h2 => hk (h3.trans h2))
            · exact m2' k h3
          · rw [l2, l1]
          · intro t ht
            rw [s2 t ht, s1 t ht]

/-- Structural invariant tying the `subg` marks to the `subgraphs_` sets:
marks name nodes in range; marks are valid subgraph offsets; membership in
the `t`-th set coincides with carrying mark `t`. -/
def Inv (m : ℕ) (st : PSt) : Prop :=
  (∀ k, st.subg k ≠ -1 → k < m) ∧
  (∀ k, st.subg k ≠ -1 → ∃ t : ℕ, t < st.subgraphs.length ∧ st.subg k = ((t : ℕ) : Int)) ∧
  (∀ (k t : ℕ), t < st.subgraphs.length →
    (k ∈ st.subgraphs.getD t ∅ ↔ st.subg k = ((t : ℕ) : Int)))

/-- All control-point node arguments stay below `m`. -/
def callNodes (m : ℕ) : Call → Prop
  | .chk n => n < m
  | .trav n => n < m
  | .lst l => ∀ p ∈ l, p < m

theorem markNode_inv (m : ℕ) (st : PSt) (n s : ℕ) (hn : n < m)
    (hun : st.subg n = -1) (hs : s < st.subgraphs.length) (hinv : Inv m st) :
    Inv m (markNode st n s) := by
  obtain ⟨hdom, hids, hmem⟩ := hinv
  refine ⟨?_, ?_, ?_⟩
  · intro k hk
    by_cases hkn : k = n
    · subst hkn; exact hn
    · rw [markNode_subg_ne _ _ _ _ hkn] at hk
      exact hdom k hk
  · intro k hk
    by_cases hkn : k = n
    · subst hkn
      exact ⟨s, by rw [markNode_len]; exact hs, markNode_subg_self _ _ _⟩
    · rw [markNode_subg_ne _ _ _ _ hkn] at hk ⊢
      obtain ⟨t, ht, he⟩ := hids k hk
      exact ⟨t, by rw [markNode_len]; exact ht, he⟩
  · intro k t ht
    rw [markNode_len] at ht
    by_cases hts : t = s
    · subst hts
      rw [markNode_sets_self _ _ _ hs]
      by_cases hkn : k = n
      · subst hkn
        simp [markNode_subg_self]
      · rw [markNode_subg_ne _ _ _ _ hkn]
        simp only [Finset.mem_insert]
        constructor
        · rintro (he | hmem')
          · exact absurd he hkn
          · exact (hmem k t ht).mp hmem'
        · intro he
          exact Or.inr ((hmem k t ht).mpr he)
    · rw [markNode_sets_ne _ _ _ _ hts]
      by_cases hkn : k = n
      · subst hkn
        rw [markNode_subg_self]
        constructor
        · intro hmem'
          have := (hmem k t ht).mp hmem'
          rw [hun] at this
          omega
        · intro he
          have : (s : Int) = (t : Int) := he
          exact absurd (by omega : t = s) hts
      · rw [markNode_subg_ne _ _ _ _ hkn]
        exact hmem k t ht

/-- The structural invariant is preserved by the traversal engine. -/
theorem partStep_consist (g : List node) (m : ℕ) (hg : g = connect m)
    (hm : 0 < m) (fuel : ℕ) :
    ∀ (c : Call) (s : ℕ) (st st' : PSt), callPre st c → callNodes m c →
    s < st.subgraphs.length → Inv m st →
    partStep g fuel c s st = .ok st' → Inv m st' := by
  induction fuel with
  | zero =>
    intro c s st st' _ _ _ _ h
    simp [partStep] at h
  | succ fuel ih =>
    intro c s st st' hpre hnodes hs hinv h
    cases c with
    | chk n =>
      simp only [partStep] at h
      split at h
      · rename_i hun
        exact ih (.trav n) s st st' hun hnodes hs hinv h
      · split at h
        · simp at h
        · cases h; exact hinv
    | trav n =>
      simp only [partStep] at h
      have hun : st.subg n = -1 := hpre
      have hn : n < m := hnodes
      cases heq : partStep g fuel (.chk (gNext g n)) s (markNode st n s) with
      | error e => rw [heq] at h; simp at h
      | ok st2 =>
        rw [heq] at h
        have hinv1 : Inv m (markNode st n s) := markNode_inv m st n s hn hun hs hinv
        have hs1 : s < (markNode st n s).subgraphs.length := by
          rw [markNode_len]; exact hs
        have hnx : gNext g n < m := by rw [hg]; exact gNext_connect_lt m n hm hn
        have hinv2 : Inv m st2 :=
          ih (.chk (gNext g n)) s (markNode st n s) st2 (by trivial) hnx hs1 hinv1 heq
        have hs2 : s < st2.subgraphs.length := by
          obtain ⟨_, _, l1, _⟩ :=
            partStep_mono g fuel (.chk (gNext g n)) s (markNode st n s) st2 (by trivial) heq
          rw [l1]; exact hs1
        have hprevs : ∀ p ∈ gPrev g n, p < m := by
          intro p hp
          rw [hg] at hp
          exact ((gPrev_connect_mem m n p hn).mp hp).1
        exact ih (.lst (gPrev g n)) s st2 st' (by trivial) hprevs hs2 hinv2 h
    | lst l =>
      cases l with
      | nil =>
        simp only [partStep] at h
        cases h; exact hinv
      | cons p rest =>
        simp only [partStep] at h
        cases heq : partStep g fuel (.chk p) s st with
        | error e => rw [heq] at h; simp at h
        | ok stmid =>
          rw [heq] at h
          have hp : p < m := hnodes p (List.mem_cons_self _ _)
          have hinvmid : Inv m stmid :=
            ih (.chk p) s st stmid (by trivial) hp hs hinv heq
          have hsmid : s < stmid.subgraphs.length := by
            obtain ⟨_, _, l1, _⟩ :=
              partStep_mono g fuel (.chk p) s st stmid (by trivial) heq
            rw [l1]; exact hs
          have hrest : ∀ q ∈ rest, q < m := fun q hq =>
            hnodes q (List.mem_cons_of_mem _ hq)
          exact ih (.lst rest) s stmid st' (by trivial) hrest hsmid hinvmid h

/-- All control-point node arguments are weakly connected to the root `r`
of the current traversal. -/
def callConn (m r : ℕ) : Call → Prop
  | .chk n => conn m r n
  | .trav n => conn m r n
  | .lst l => ∀ p ∈ l, conn m r p

/-- Every node marked by the engine is weakly connected to the root. -/
theorem partStep_conn (g : List node) (m : ℕ) (hg : g = connect m)
    (hm : 0 < m) (fuel : ℕ) :
    ∀ (c : Call) (s : ℕ) (st st' : PSt) (r : ℕ), callPre st c →
    callNodes m c → callConn m r c →
    partStep g fuel c s st = .ok st' →
    ∀ k, st'.subg k ≠ st.subg k → conn m r k := by
  induction fuel with
  | zero =>
    intro c s st st' r _ _ _ h
    simp [partStep] at h
  | succ fuel ih =>
    intro c s st st' r hpre hnodes hconn h
    cases c with
    | chk n =>
      simp only [partStep] at h
      split at h
      · rename_i hun
        exact ih (.trav n) s st st' r hun hnodes hconn h
      · split at h
        · simp at h
        · cases h
          intro k hk
          exact absurd rfl hk
    | trav n =>
      simp only [partStep] at h
      have hun : st.subg n = -1 := hpre
      have hn : n < m := hnodes
      have hrn : conn m r n := hconn
      cases heq : partStep g fuel (.chk (gNext g n)) s (markNode st n s) with
      | error e => rw [heq] at h; simp at h
      | ok st2 =>
        rw [heq] at h
        have hnx : gNext g n < m := by rw [hg]; exact gNext_connect_lt m n hm hn
        have hadjnx : adj m n (gNext g n) :=
          ⟨hn, hnx, Or.inl (by rw [hg, gNext_connect m n hn]; rfl)⟩
        have hconnnx : conn m r (gNext g n) := conn_trans hrn (conn_of_adj hadjnx)
        have hprevs : ∀ p ∈ gPrev g n, p < m := by
          intro p hp
          rw [hg] at hp
          exact ((gPrev_connect_mem m n p hn).mp hp).1
        have hconnprev : ∀ p ∈ gPrev g n, conn m r p := by
          intro p hp
          rw [hg] at hp
          obtain ⟨hpm, hpnext⟩ := (gPrev_connect_mem m n p hn).mp hp
          exact conn_trans hrn (conn_of_adj ⟨hn, hpm, Or.inr hpnext⟩)
        intro k hk
        by_cases h3 : st'.subg k = st2.subg k
        · by_cases h2 : st2.subg k = (markNode st n s).subg k
          · by_cases hkn : k = n
            · subst hkn; exact hrn
            · exact absurd (by rw [h3, h2, markNode_subg_ne _ _ _ _ hkn]) hk
          · exact ih (.chk (gNext g n)) s (markNode st n s) st2 r (by trivial)
              hnx hconnnx heq k h2
        · exact ih (.lst (gPrev g n)) s st2 st' r (by trivial)
            hprevs hconnprev h k h3
    | lst l =>
      cases l with
      | nil =>
        simp only [partStep] at h
        cases h
        intro k hk
        exact absurd rfl hk
      | cons p rest =>
        simp only [partStep] at h
        cases heq : partStep g fuel (.chk p) s st with
        | error e => rw [heq] at h; simp at h
        | ok stmid =>
          rw [heq] at h
          have hp : p < m := hnodes p (List.mem_cons_self _ _)
          have hrest : ∀ q ∈ rest, q < m := fun q hq =>
            hnodes q (List.mem_cons_of_mem _ hq)
          have hcp : conn m r p := hconn p (List.mem_cons_self _ _)
          have hcrest : ∀ q ∈ rest, conn m r q := fun q hq =>
            hconn q (List.mem_cons_of_mem _ hq)
          intro k hk
          by_cases h3 : st'.subg k = stmid.subg k
          · exact ih (.chk p) s st stmid r (by trivial) hp hcp heq k
              (fun h2 => hk (h3.trans h2))
          · exact ih (.lst rest) s stmid st' r (by trivial) hrest hcrest h k h3

/-- Marked nodes stay marked. -/
theorem partStep_marks_persist (g : List node) (fuel : ℕ) (c : Call) (s : ℕ)
    (st st' : PSt) (hpre : callPre st c)
    (h : partStep g fuel c s st = .ok st') (k : ℕ) (hk : st.subg k ≠ -1) :
    st'.subg k ≠ -1 := by
  obtain ⟨m1, _, _, _⟩ := partStep_mono g fuel c s st st' hpre h
  rw [m1 k hk]
  exact hk

/-- Post-call obligations per control point, used to show every weak
component is exhausted: the argument of a completed `check_node` is marked,
and so is every list element of a completed `prev` loop. -/
def callDone (st' : PSt) : Call → Prop
  | .chk n => st'.subg n ≠ -1
  | .trav n => st'.subg n ≠ -1
  | .lst l => ∀ p ∈ l, st'.subg p ≠ -1

/-- Completeness: when a call of the engine returns, every node it marked
has all of its weak neighbors marked, and the nodes it was asked to handle
are marked. -/
theorem partStep_complete (g : List node) (m : ℕ) (hg : g = connect m)
    (hm : 0 < m) (fuel : ℕ) :
    ∀ (c : Call) (s : ℕ) (st st' : PSt), callPre st c → callNodes m c →
    partStep g fuel c s st = .ok st' →
    (∀ x, st'.subg x ≠ st.subg x → ∀ y, adj m x y → st'.subg y ≠ -1) ∧
    callDone st' c := by
  induction fuel with
  | zero =>
    intro c s st st' _ _ h
    simp [partStep] at h
  | succ fuel ih =>
    intro c s st st' hpre hnodes h
    cases c with
    | chk n =>
      simp only [partStep] at h
      split at h
      · rename_i hun
        exact ih (.trav n) s st st' hun hnodes h
      · split at h
        · simp at h
        · rename_i hmk hsame
          cases h
          exact ⟨fun x hx => absurd rfl hx, hmk⟩
    | trav n =>
      simp only [partStep] at h
      have hun : st.subg n = -1 := hpre
      have hn : n < m := hnodes
      cases heq : partStep g fuel (.chk (gNext g n)) s (markNode st n s) with
      | error e => rw [heq] at h; simp at h
      | ok st2 =>
        rw [heq] at h
        have hnx : gNext g n < m := by rw [hg]; exact gNext_connect_lt m n hm hn
        have hprevs : ∀ p ∈ gPrev g n, p < m := by
          intro p hp
          rw [hg] at hp
          exact ((gPrev_connect_mem m n p hn).mp hp).1
        obtain ⟨ihc1, ihc2⟩ :=
          ih (.chk (gNext g n)) s (markNode st n s) st2 (by trivial) hnx heq
        obtain ⟨ihl1, ihl2⟩ := ih (.lst (gPrev g n)) s st2 st' (by trivial) hprevs h
        have hnmark : st'.subg n ≠ -1 := by
          apply partStep_marks_persist g fuel (.lst (gPrev g n)) s st2 st' (by trivial) h
          apply partStep_marks_persist g fuel (.chk (gNext g n)) s
            (markNode st n s) st2 (by trivial) heq
          rw [markNode_subg_self]
          omega
        refine ⟨?_, hnmark⟩
        intro x hx y hadj
        by_cases hxn : x = n
        · have hadj' : adj m n y := hxn ▸ hadj
          rcases hadj'.2.2 with hnext | hprev
          · have hy : y = gNext g n := by rw [hg, gNext_connect m n hn]; exact hnext.symm
            subst hy
            exact partStep_marks_persist g fuel (.lst (gPrev g n)) s st2 st'
              (by trivial) h _ ihc2
          · have hy : y ∈ gPrev g n := by
              rw [hg]
              exact (gPrev_connect_mem m n y hn).mpr ⟨hadj'.2.1, hprev⟩
            exact ihl2 y hy
        · -- x ≠ n: it was marked during the chk phase or the lst phase
          by_cases h3 : st'.subg x = st2.subg x
          · have h2 : st2.subg x ≠ (markNode st n s).subg x := by
              intro h2
              exact hx (by rw [h3, h2, markNode_subg_ne _ _ _ _ hxn])
            exact partStep_marks_persist g fuel (.lst (gPrev g n)) s st2 st'
              (by trivial) h y (ihc1 x h2 y hadj)
          · exact ihl1 x h3 y hadj
    | lst l =>
      cases l with
      | nil =>
        simp only [partStep] at h
        cases h
        exact ⟨fun x hx => absurd rfl hx, fun p hp => absurd hp (List.not_mem_nil p)⟩
      | cons p rest =>
        simp only [partStep] at h
        cases heq : partStep g fuel (.chk p) s st with
        | error e => rw [heq] at h; simp at h
        | ok stmid =>
          rw [heq] at h
          have hp : p < m := hnodes p (List.mem_cons_self _ _)
          have hrest : ∀ q ∈ rest, q < m := fun q hq =>
            hnodes q (List.mem_cons_of_mem _ hq)
          obtain ⟨ihc1, ihc2⟩ := ih (.chk p) s st stmid (by trivial) hp heq
          obtain ⟨ihl1, ihl2⟩ := ih (.lst rest) s stmid st' (by trivial) hrest h
          refine ⟨?_, ?_⟩
          · intro x hx y hadj
            by_cases h3 : st'.subg x = stmid.subg x
            · have h2 : stmid.subg x ≠ st.subg x := fun h2 => hx (h3.trans h2)
              exact partStep_marks_persist g fuel (.lst rest) s stmid st'
                (by trivial) h y (ihc1 x h2 y hadj)
            · exact ihl1 x h3 y hadj
          · intro q hq
            rcases List.mem_cons.mp hq with hqp | hqrest
            · subst hqp
              exact partStep_marks_persist g fuel (.lst rest) s stmid st'
                (by trivial) h q ihc2
            · exact ihl2 q hqrest

/-- Separation of the already-finished components from the current round:
a node marked with some earlier subgraph offset has all of its weak
neighbors marked with earlier offsets as well. -/
def OldSep (m : ℕ) (st : PSt) (s : ℕ) : Prop :=
  ∀ k k', st.subg k ≠ -1 → st.subg k ≠ ((s : ℕ) : Int) → adj m k k' →
    st.subg k' ≠ -1 ∧ st.subg k' ≠ ((s : ℕ) : Int)

theorem oldSep_reach (m : ℕ) (st : PSt) (s : ℕ) (hOS : OldSep m st s)
    {a b : ℕ} (hconn : conn m a b) (ha1 : st.subg a ≠ -1)
    (ha2 : st.subg a ≠ ((s : ℕ) : Int)) :
    st.subg b ≠ -1 ∧ st.subg b ≠ ((s : ℕ) : Int) := by
  induction hconn with
  | refl => exact ⟨ha1, ha2⟩
  | tail hrtg hbc ih => exact hOS _ _ ih.1 ih.2 hbc

theorem oldSep_markNode (m : ℕ) (st : PSt) (n s : ℕ)
    (hun : st.subg n = -1) (hOS : OldSep m st s) :
    OldSep m (markNode st n s) s := by
  intro k k' h1 h2 hadj
  have hkn : k ≠ n := by
    intro he
    rw [he, markNode_subg_self] at h2
    exact h2 rfl
  rw [markNode_subg_ne _ _ _ _ hkn] at h1 h2
  obtain ⟨h1', h2'⟩ := hOS k k' h1 h2 hadj
  have hk'n : k' ≠ n := by
    intro he
    rw [he, hun] at h1'
    exact h1' rfl
  rw [markNode_subg_ne _ _ _ _ hk'n]
  exact ⟨h1', h2'⟩

theorem oldSep_mono (m : ℕ) (st st' : PSt) (s : ℕ)
    (hmono1 : ∀ k, st.subg k ≠ -1 → st'.subg k = st.subg k)
    (hmono2 : ∀ k, st'.subg k ≠ st.subg k → st'.subg k = ((s : ℕ) : Int))
    (hOS : OldSep m st s) : OldSep m st' s := by
  intro k k' h1 h2 hadj
  have hold : st.subg k ≠ -1 := by
    intro he
    by_cases hch : st'.subg k = st.subg k
    · exact h1 (hch.trans he)
    · exact h2 (hmono2 k hch)
  rw [hmono1 k hold] at h1 h2
  obtain ⟨h1', h2'⟩ := hOS k k' h1 h2 hadj
  rw [hmono1 k' h1']
  exact ⟨h1', h2'⟩

/-- Fuel needed at each control point: linear in the number of unmarked
nodes, with slack for the `prev` list being walked. -/
def callFuel (m : ℕ) (st : PSt) (fuel : ℕ) : Call → Prop
  | .chk _ => (m + 4) * U m st + m + 1 ≤ fuel
  | .trav _ => (m + 4) * U m st + m ≤ fuel
  | .lst l => (m + 4) * U m st + l.length + m + 2 ≤ fuel

/-- The traversal engine succeeds: with the invariants of a round in force,
neither the conflict branch of `check_node` nor the fuel bound is ever
reached. -/
theorem partStep_ok (g : List node) (m : ℕ) (hg : g = connect m)
    (hm : 0 < m) (fuel : ℕ) :
    ∀ (c : Call) (s : ℕ) (st : PSt) (r : ℕ), callPre st c → callNodes m c →
    callConn m r c → OldSep m st s →
    (st.subg r = -1 ∨ st.subg r = ((s : ℕ) : Int)) →
    callFuel m st fuel c →
    ∃ st', partStep g fuel c s st = .ok st' := by
  induction fuel with
  | zero =>
    intro c s st r _ _ _ _ _ hcf
    exfalso
    cases c <;> simp only [callFuel] at hcf <;> omega
  | succ fuel ih =>
    intro c s st r hpre hnodes hconn hOS hroot hcf
    cases c with
    | chk n =>
      by_cases hun : st.subg n = -1
      · obtain ⟨st', h'⟩ := ih (.trav n) s st r hun hnodes hconn hOS hroot
          (by simp only [callFuel] at hcf ⊢; omega)
        exact ⟨st', by simp only [partStep, if_pos hun]; exact h'⟩
      · have hval : st.subg n = ((s : ℕ) : Int) := by
          by_contra hns
          obtain ⟨hr1, hr2⟩ := oldSep_reach m st s hOS (conn_symm hconn) hun hns
          rcases hroot with hr | hr
          · exact hr1 hr
          · exact hr2 hr
        refine ⟨st, ?_⟩
        simp only [partStep, if_neg hun]
        rw [if_neg (not_not_intro hval)]
    | trav n =>
      have hun : st.subg n = -1 := hpre
      have hn : n < m := hnodes
      have hrn : conn m r n := hconn
      simp only [callFuel] at hcf
      have hU1 : U m (markNode st n s) + 1 = U m st := U_markNode m st n s hn hun
      have hnx : gNext g n < m := by rw [hg]; exact gNext_connect_lt m n hm hn
      have hadjnx : adj m n (gNext g n) :=
        ⟨hn, hnx, Or.inl (by rw [hg, gNext_connect m n hn]; rfl)⟩
      have hconnnx : conn m r (gNext g n) := conn_trans hrn (conn_of_adj hadjnx)
      have hOS1 : OldSep m (markNode st n s) s := oldSep_markNode m st n s hun hOS
      have hroot1 : (markNode st n s).subg r = -1 ∨
          (markNode st n s).subg r = ((s : ℕ) : Int) := by
        by_cases hrn' : r = n
        · subst hrn'
          exact Or.inr (markNode_subg_self _ _ _)
        · rw [markNode_subg_ne _ _ _ _ hrn']
          exact hroot
      have hmulU : (m + 4) * U m st = (m + 4) * U m (markNode st n s) + (m + 4) := by
        rw [← hU1]; ring
      obtain ⟨st2, heq⟩ := ih (.chk (gNext g n)) s (markNode st n s) r
        (by trivial) hnx hconnnx hOS1 hroot1
        (by simp only [callFuel]; omega)
      obtain ⟨m1, m1', l1, _⟩ :=
        partStep_mono g fuel (.chk (gNext g n)) s (markNode st n s) st2 (by trivial) heq
      have hU2 : U m st2 ≤ U m (markNode st n s) := by
        apply U_mono
        intro k hk
        rw [m1 k hk]
        exact hk
      have hprevs : ∀ p ∈ gPrev g n, p < m := by
        intro p hp
        rw [hg] at hp
        exact ((gPrev_connect_mem m n p hn).mp hp).1
      have hconnprev : ∀ p ∈ gPrev g n, conn m r p := by
        intro p hp
        rw [hg] at hp
        obtain ⟨hpm, hpnext⟩ := (gPrev_connect_mem m n p hn).mp hp
        exact conn_trans hrn (conn_of_adj ⟨hn, hpm, Or.inr hpnext⟩)
      have hOS2 : OldSep m st2 s := oldSep_mono m _ st2 s m1 m1' hOS1
      have hroot2 : st2.subg r = -1 ∨ st2.subg r = ((s : ℕ) : Int) := by
        by_cases hch : st2.subg r = (markNode st n s).subg r
        · rw [hch]; exact hroot1
        · exact Or.inr (m1' r hch)
      have hlenp : (gPrev g n).length ≤ m := by
        rw [hg]; exact gPrev_connect_len m n hn
      have hmulU2 : (m + 4) * U m st2 ≤ (m + 4) * U m (markNode st n s) :=
        Nat.mul_le_mul_left _ hU2
      obtain ⟨st', h'⟩ := ih (.lst (gPrev g n)) s st2 r (by trivial)
        hprevs hconnprev hOS2 hroot2
        (by simp only [callFuel]; omega)
      refine ⟨st', ?_⟩
      simp only [partStep]
      rw [heq]
      exact h'
    | lst l =>
      cases l with
      | nil => exact ⟨st, by simp only [partStep]⟩
      | cons p rest =>
        simp only [callFuel, List.length_cons] at hcf
        have hp : p < m := hnodes p (List.mem_cons_self _ _)
        have hrest : ∀ q ∈ rest, q < m := fun q hq =>
          hnodes q (List.mem_cons_of_mem _ hq)
        have hcp : conn m r p := hconn p (List.mem_cons_self _ _)
        have hcrest : ∀ q ∈ rest, conn m r q := fun q hq =>
          hconn q (List.mem_cons_of_mem _ hq)
        obtain ⟨stmid, heq⟩ := ih (.chk p) s st r (by trivial) hp hcp hOS hroot
          (by simp only [callFuel]; omega)
        obtain ⟨m1, m1', l1, _⟩ :=
          partStep_mono g fuel (.chk p) s st stmid (by trivial) heq
        have hU2 : U m stmid ≤ U m st := by
          apply U_mono
          intro k hk
          rw [m1 k hk]
          exact hk
        have hOS2 : OldSep m stmid s := oldSep_mono m st stmid s m1 m1' hOS
        have hroot2 : stmid.subg r = -1 ∨ stmid.subg r = ((s : ℕ) : Int) := by
          by_cases hch : stmid.subg r = st.subg r
          · rw [hch]; exact hroot
          · exact Or.inr (m1' r hch)
        have hmulU2 : (m + 4) * U m stmid ≤ (m + 4) * U m st :=
          Nat.mul_le_mul_left _ hU2
        obtain ⟨st', h'⟩ := ih (.lst rest) s stmid r (by trivial) hrest hcrest
          hOS2 hroot2 (by simp only [callFuel]; omega)
        refine ⟨st', ?_⟩
        simp only [partStep]
        rw [heq]
        exact h'

/-- All marked nodes have all their weak neighbors marked (the marked
region is a union of complete weak components). -/
def Closed (m : ℕ) (st : PSt) : Prop :=
  ∀ k k', st.subg k ≠ -1 → adj m k k' → st.subg k' ≠ -1

theorem append_getD_lt {α : Type} (l : List α) (x d : α) (t : ℕ)
    (h : t < l.length) : (l ++ [x]).getD t d = l.getD t d := by
  induction l generalizing t with
  | nil => simp at h
  | cons a tl ih =>
    cases t with
    | zero => rfl
    | succ t =>
      show (a :: (tl ++ [x])).getD (t + 1) d = (a :: tl).getD (t + 1) d
      simp only [List.getD_cons_succ]
      exact ih t (by simpa using h)

theorem append_getD_len {α : Type} (l : List α) (x d : α) :
    (l ++ [x]).getD l.length d = x := by
  induction l with
  | nil => rfl
  | cons a tl ih =>
    show (a :: (tl ++ [x])).getD (tl.length + 1) d = x
    simp only [List.getD_cons_succ]
    exact ih

/-- Pushing a fresh empty subgraph preserves the structural invariant. -/
theorem Inv_push (m : ℕ) (st : PSt) (hinv : Inv m st) :
    Inv m { st with subgraphs := st.subgraphs ++ [∅] } := by
  obtain ⟨hdom, hids, hmem⟩ := hinv
  refine ⟨hdom, ?_, ?_⟩
  · intro k hk
    obtain ⟨t, ht, he⟩ := hids k hk
    exact ⟨t, by simp; omega, he⟩
  · intro k t ht
    simp only [List.length_append, List.length_cons, List.length_nil] at ht
    by_cases htl : t < st.subgraphs.length
    · show k ∈ (st.subgraphs ++ [∅]).getD t ∅ ↔ _
      rw [append_getD_lt _ _ _ _ htl]
      exact hmem k t htl
    · have hteq : t = st.subgraphs.length := by omega
      subst hteq
      show k ∈ (st.subgraphs ++ [∅]).getD _ ∅ ↔ _
      rw [append_getD_len]
      simp only [Finset.not_mem_empty, false_iff]
      intro he
      have hk : st.subg k ≠ -1 := by rw [he]; omega
      obtain ⟨t', ht', he'⟩ := hids k hk
      rw [he'] at he
      have : t' = st.subgraphs.length := by omega
      omega

/-- One round of `partition`: push a fresh subgraph and `traverse` from an
unassigned root.  The round succeeds, keeps the invariants, leaves old
marks alone, and marks the root. -/
theorem partition_round (m : ℕ) (hm : 0 < m) (st : PSt) (n : ℕ) (hn : n < m)
    (hun : st.subg n = -1) (hinv : Inv m st) (hcl : Closed m st) :
    ∃ st', partStep (connect m) (FUEL m) (.trav n) st.subgraphs.length
        { st with subgraphs := st.subgraphs ++ [∅] } = .ok st' ∧
      Inv m st' ∧ Closed m st' ∧
      (∀ k, st.subg k ≠ -1 → st'.subg k = st.subg k) ∧ st'.subg n ≠ -1 := by
  set s := st.subgraphs.length with hs
  set st1 : PSt := { st with subgraphs := st.subgraphs ++ [∅] } with hst1
  have hsub1 : st1.subg = st.subg := rfl
  have hlen1 : st1.subgraphs.length = s + 1 := by simp [hst1]
  have hfresh : ∀ k, st.subg k ≠ ((s : ℕ) : Int) := by
    intro k he
    have hk : st.subg k ≠ -1 := by rw [he]; omega
    obtain ⟨t, ht, he'⟩ := hinv.2.1 k hk
    rw [he'] at he
    have : t = s := by omega
    omega
  have hOS : OldSep m st1 s := by
    intro k k' h1 h2 hadj
    rw [hsub1] at h1 h2 ⊢
    exact ⟨hcl k k' h1 hadj, hfresh k'⟩
  have hcf : callFuel m st1 (FUEL m) (.trav n) := by
    show (m + 4) * U m st1 + m ≤ FUEL m
    have hU : U m st1 ≤ m := U_le m st1
    have : (m + 4) * U m st1 ≤ (m + 4) * m := Nat.mul_le_mul_left _ hU
    unfold FUEL
    omega
  obtain ⟨st', hok⟩ := partStep_ok (connect m) m rfl hm (FUEL m) (.trav n) s st1 n
    hun hn (conn_refl m n) hOS (Or.inl hun) hcf
  obtain ⟨m1, m1', l1, s1⟩ :=
    partStep_mono (connect m) (FUEL m) (.trav n) s st1 st' hun hok
  have hinv1 : Inv m st1 := Inv_push m st hinv
  have hs1 : s < st1.subgraphs.length := by omega
  have hinv' : Inv m st' :=
    partStep_consist (connect m) m rfl hm (FUEL m) (.trav n) s st1 st'
      hun hn hs1 hinv1 hok
  obtain ⟨hcmp1, hcmp2⟩ :=
    partStep_complete (connect m) m rfl hm (FUEL m) (.trav n) s st1 st' hun hn hok
  have hcl' : Closed m st' := by
    intro k k' h1 hadj
    by_cases hch : st'.subg k = st1.subg k
    · have hold : st.subg k ≠ -1 := by rw [← hsub1, ← hch]; exact h1
      have : st.subg k' ≠ -1 := hcl k k' hold hadj
      rw [m1 k' this]
      exact this
    · exact hcmp1 k hch k' hadj
  refine ⟨st', hok, hinv', hcl', ?_, hcmp2⟩
  intro k hk
  exact m1 k hk

/-- The scan loop of `partition` over a list of roots. -/
theorem partition_loop (m : ℕ) (hm : 0 < m) :
    ∀ (l : List ℕ) (st : PSt), (∀ x ∈ l, x < m) → Inv m st → Closed m st →
    ∃ st',
      (l.foldlM
        (fun st n =>
          if st.subg n = -1 then
            partStep (connect m) (FUEL m) (.trav n) st.subgraphs.length
              { st with subgraphs := st.subgraphs ++ [∅] }
          else pure st)
        st = .ok st') ∧
      Inv m st' ∧ Closed m st' ∧
      (∀ k, st.subg k ≠ -1 → st'.subg k = st.subg k) ∧
      (∀ x ∈ l, st'.subg x ≠ -1) := by
  intro l
  induction l with
  | nil =>
    intro st _ hinv hcl
    exact ⟨st, rfl, hinv, hcl, fun k _ => rfl, fun x hx => absurd hx (List.not_mem_nil x)⟩
  | cons n rest ih =>
    intro st hl hinv hcl
    have hn : n < m := hl n (List.mem_cons_self _ _)
    have hrest : ∀ x ∈ rest, x < m := fun x hx => hl x (List.mem_cons_of_mem _ hx)
    by_cases hun : st.subg n = -1
    · obtain ⟨st1, hok, hinv1, hcl1, hold1, hmk1⟩ :=
        partition_round m hm st n hn hun hinv hcl
      obtain ⟨st', hfold, hinv', hcl', hold', hmk'⟩ := ih st1 hrest hinv1 hcl1
      refine ⟨st', ?_, hinv', hcl', ?_, ?_⟩
      · rw [List.foldlM_cons, if_pos hun, hok]
        exact hfold
      · intro k hk
        rw [hold' k (by rw [hold1 k hk]; exact hk), hold1 k hk]
      · intro x hx
        rcases List.mem_cons.mp hx with hxn | hxr
        · subst hxn
          rw [hold' x hmk1]
          exact hmk1
        · exact hmk' x hxr
    · obtain ⟨st', hfold, hinv', hcl', hold', hmk'⟩ := ih st hrest hinv hcl
      refine ⟨st', ?_, hinv', hcl', hold', ?_⟩
      · rw [List.foldlM_cons, if_neg hun]
        exact hfold
      · intro x hx
        rcases List.mem_cons.mp hx with hxn | hxr
        · subst hxn
          rw [hold' x hun]
          exact hun
        · exact hmk' x hxr

/-- `graph::partition` always succeeds (for positive modulus) and yields a
state satisfying the structural invariant with every node assigned. -/
theorem partition_sound (m : ℕ) (hm : 0 < m) :
    ∃ st', partition m = .ok st' ∧ Inv m st' ∧ Closed m st' ∧
      ∀ k < m, st'.subg k ≠ -1 := by
  have hinv0 : Inv m { subg := fun _ => -1, subgraphs := [] } := by
    refine ⟨fun k hk => absurd rfl hk, fun k hk => absurd rfl hk, fun k t ht => ?_⟩
    simp at ht
  have hcl0 : Closed m { subg := fun _ => -1, subgraphs := [] } :=
    fun k k' hk _ => absurd rfl hk
  obtain ⟨st', hfold, hinv', hcl', _, hmk'⟩ :=
    partition_loop m hm (List.range m) { subg := fun _ => -1, subgraphs := [] }
      (fun x hx => List.mem_range.mp hx) hinv0 hcl0
  refine ⟨st', ?_, hinv', hcl', ?_⟩
  · unfold partition
    exact hfold
  · intro k hk
    exact hmk' k (List.mem_range.mpr hk)

/-! ## Force-field lemmas -/

theorem attract_snd_nonneg (k : ℝ) (u : Vec3) (r : ℝ) (hk : 0 ≤ k) :
    0 ≤ (attract k u r).2 := by
  unfold attract
  have := sq_nonneg r
  nlinarith

theorem edge_attract_snd_nonneg (m i j : ℕ) (u : Vec3) (r : ℝ) :
    0 ≤ (edge_attract m i j u r).2 := by
  unfold edge_attract
  split
  · exact attract_snd_nonneg _ u r (by unfold edge_attract_; norm_num)
  · norm_num

theorem sum_attract_snd_nonneg (m i j : ℕ) (u : Vec3) (r : ℝ) :
    0 ≤ (sum_attract m i j u r).2 := by
  unfold sum_attract
  dsimp only
  have hc : (0 : ℝ) ≤ 1 / sum_attract_ := by unfold sum_attract_; norm_num
  have key : ∀ (l : List ℕ) (acc : Vec3 × ℝ), acc.2 ≤
      (l.foldl
        (fun (acc : Vec3 × ℝ) (n : ℕ) =>
          let a : ℝ := n * (1 / sum_attract_ / m)
          let acc1 := if (i + j) % m = n
            then acc + attract (if n = 0 then 1 / sum_attract_ else a) u r else acc
          if m - (i + j) % m = n then acc1 + attract a u r else acc1)
        acc).2 := by
    intro l
    induction l with
    | nil => intro acc; exact le_refl _
    | cons n rest ih =>
      intro acc
      refine le_trans ?_ (ih _)
      have ha : (0 : ℝ) ≤ (n : ℝ) * (1 / sum_attract_ / m) := by positivity
      have h1 : (0 : ℝ) ≤ (attract (if n = 0 then 1 / sum_attract_ else
          (n : ℝ) * (1 / sum_attract_ / m)) u r).2 := by
        apply attract_snd_nonneg
        split
        · exact hc
        · exact ha
      have h2 : (0 : ℝ) ≤ (attract ((n : ℝ) * (1 / sum_attract_ / m)) u r).2 :=
        attract_snd_nonneg _ u r ha
      dsimp only
      split <;> split <;> (try simp only [Prod.snd_add]) <;> linarith
  exact key (calculate_factors m) (0, 0)

theorem factor_attract_snd_nonneg (m i j : ℕ) (u : Vec3) (r : ℝ) :
    0 ≤ (factor_attract m i j u r).2 := by
  unfold factor_attract
  dsimp only
  have hc : (0 : ℝ) ≤ 1 / factor_attract_ := by unfold factor_attract_; norm_num
  have key : ∀ (l : List ℕ) (acc : Vec3 × ℝ), acc.2 ≤
      (l.foldl
        (fun (acc : Vec3 × ℝ) (n : ℕ) =>
          let a : ℝ := n * (1 / factor_attract_ / m)
          let acc1 := if i = n ∨ j = n
            then acc + attract (if n = 0 then 1 / factor_attract_ else a) u r else acc
          if i = m - n ∨ j = m - n then acc1 + attract a u r else acc1)
        acc).2 := by
    intro l
    induction l with
    | nil => intro acc; exact le_refl _
    | cons n rest ih =>
      intro acc
      refine le_trans ?_ (ih _)
      have ha : (0 : ℝ) ≤ (n : ℝ) * (1 / factor_attract_ / m) := by positivity
      have h1 : (0 : ℝ) ≤ (attract (if n = 0 then 1 / factor_attract_ else
          (n : ℝ) * (1 / factor_attract_ / m)) u r).2 := by
        apply attract_snd_nonneg
        split
        · exact hc
        · exact ha
      have h2 : (0 : ℝ) ≤ (attract ((n : ℝ) * (1 / factor_attract_ / m)) u r).2 :=
        attract_snd_nonneg _ u r ha
      dsimp only
      split <;> split <;> (try simp only [Prod.snd_add]) <;> linarith
  exact key (calculate_factors m) (0, 0)

/-- The potential contribution of a distinct pair is at least the pure
repulsion term `1/r`: the three attraction terms are nonnegative. -/
theorem force_and_pot_snd_ge (m i j : ℕ) (pos : ℕ → Vec3) (hij : i ≠ j) :
    1 / norm3 (pos j - pos i) ≤ (force_and_pot m i j pos).2 := by
  unfold force_and_pot
  rw [if_neg hij]
  dsimp only
  simp only [Prod.snd_add]
  have h1 := edge_attract_snd_nonneg m i j
    ((1 / norm3 (pos j - pos i)) • (pos j - pos i)) (norm3 (pos j - pos i))
  have h2 := sum_attract_snd_nonneg m i j
    ((1 / norm3 (pos j - pos i)) • (pos j - pos i)) (norm3 (pos j - pos i))
  have h3 := factor_attract_snd_nonneg m i j
    ((1 / norm3 (pos j - pos i)) • (pos j - pos i)) (norm3 (pos j - pos i))
  unfold repulsion
  dsimp only
  linarith

theorem force_and_pot_snd_nonneg (m i j : ℕ) (pos : ℕ → Vec3) :
    0 ≤ (force_and_pot m i j pos).2 := by
  by_cases hij : i = j
  · subst hij
    unfold force_and_pot
    simp
  · refine le_trans ?_ (force_and_pot_snd_ge m i j pos hij)
    have := norm3_nonneg (pos j - pos i)
    positivity

/-- The total potential dominates the repulsion-only potential. -/
theorem potential_ge_repulsion (m : ℕ) (pos : ℕ → Vec3) :
    repulsionPotential m pos ≤ potential m pos := by
  unfold potential repulsionPotential
  apply Finset.sum_le_sum
  intro i hi
  apply Finset.sum_le_sum
  intro j hj
  apply force_and_pot_snd_ge
  simp only [Finset.mem_Ico] at hj
  omega

/-- The total potential dominates each single pair's repulsion term. -/
theorem potential_ge_inv_dist (m : ℕ) (pos : ℕ → Vec3) (i j : ℕ)
    (hi : i < m) (hj : j < m) (hij : i ≠ j) :
    1 / norm3 (pos j - pos i) ≤ potential m pos := by
  -- order the pair
  rcases Nat.lt_or_ge i j with hlt | hge
  · have hsingle : (force_and_pot m i j pos).2 ≤ potential m pos := by
      unfold potential
      calc (force_and_pot m i j pos).2
          ≤ ∑ j' ∈ Finset.Ico (i + 1) m, (force_and_pot m i j' pos).2 := by
            apply Finset.single_le_sum
              (fun k _ => force_and_pot_snd_nonneg m i k pos)
            simp only [Finset.mem_Ico]
            omega
        _ ≤ ∑ i' ∈ Finset.range m, ∑ j' ∈ Finset.Ico (i' + 1) m,
              (force_and_pot m i' j' pos).2 := by
            apply Finset.single_le_sum
              (fun k _ => Finset.sum_nonneg (fun j' _ => force_and_pot_snd_nonneg m k j' pos))
            exact Finset.mem_range.mpr hi
    exact le_trans (force_and_pot_snd_ge m i j pos hij) hsingle
  · have hlt : j < i := by omega
    have hswap : norm3 (pos j - pos i) = norm3 (pos i - pos j) := by
      rw [← norm3_neg (pos i - pos j), neg_sub]
    rw [hswap]
    have hsingle : (force_and_pot m j i pos).2 ≤ potential m pos := by
      unfold potential
      calc (force_and_pot m j i pos).2
          ≤ ∑ j' ∈ Finset.Ico (j + 1) m, (force_and_pot m j j' pos).2 := by
            apply Finset.single_le_sum
              (fun k _ => force_and_pot_snd_nonneg m j k pos)
            simp only [Finset.mem_Ico]
            omega
        _ ≤ ∑ i' ∈ Finset.range m, ∑ j' ∈ Finset.Ico (i' + 1) m,
              (force_and_pot m i' j' pos).2 := by
            apply Finset.single_le_sum
              (fun k _ => Finset.sum_nonneg (fun j' _ => force_and_pot_snd_nonneg m k j' pos))
            exact Finset.mem_range.mpr hj
    exact le_trans (force_and_pot_snd_ge m j i pos (Ne.symm hij)) hsingle

/-- The stored force table is antisymmetric. -/
theorem forcesMat_antisymm (m : ℕ) (pos : ℕ → Vec3) (i j : ℕ) :
    forcesMat m pos j i = -(forcesMat m pos i j) := by
  unfold forcesMat
  rcases lt_trichotomy i j with h | h | h
  · simp [h, lt_asymm h]
  · subst h
    simp
  · simp [h, lt_asymm h]

/-- The net forces cancel: the sum over all nodes of the per-node net
force is the zero vector. -/
theorem netForce_total_zero (m : ℕ) (pos : ℕ → Vec3) :
    ∑ i ∈ Finset.range m, netForce m pos i = 0 := by
  unfold netForce
  have h : ∑ i ∈ Finset.range m, ∑ j ∈ Finset.range m, forcesMat m pos i j
      = -(∑ i ∈ Finset.range m, ∑ j ∈ Finset.range m, forcesMat m pos i j) := by
    nth_rewrite 1 [Finset.sum_comm]
    rw [← Finset.sum_neg_distrib]
    apply Finset.sum_congr rfl
    intro i _
    rw [← Finset.sum_neg_distrib]
    apply Finset.sum_congr rfl
    intro j _
    exact forcesMat_antisymm m pos i j
  set T := ∑ i ∈ Finset.range m, ∑ j ∈ Finset.range m, forcesMat m pos i j with hT
  have hx : T.x = 0 := by
    have := congrArg Vec3.x h
    simp only [Vec3.neg_x] at this
    linarith
  have hy : T.y = 0 := by
    have := congrArg Vec3.y h
    simp only [Vec3.neg_y] at this
    linarith
  have hz : T.z = 0 := by
    have := congrArg Vec3.z h
    simp only [Vec3.neg_z] at this
    linarith
  ext
  · exact hx
  · exact hy
  · exact hz

/-! ## Helper definitions for concrete checks -/

/-- Whether `graph::partition` completed without throwing. -/
def partitionOk (m : ℕ) : Bool :=
  match partition m with
  | .ok _ => true
  | .error _ => false

/-- The subgraph sets produced by `graph::partition` (empty list if it
threw). -/
def partitionSubgraphs (m : ℕ) : List (Finset ℕ) :=
  match partition m with
  | .ok st => st.subgraphs
  | .error _ => []

/-- Concrete injective position assignment used as witness input: node `k`
sits at `(k, 0, 0)`. -/
def wpos : ℕ → Vec3 := fun k => ⟨(k : ℝ), 0, 0⟩

theorem wpos_inj (a b : ℕ) (h : a ≠ b) : wpos a ≠ wpos b := by
  intro he
  apply h
  have := congrArg Vec3.x he
  simpa [wpos] using Nat.cast_injective this

/-! ## The claims -/

/-- C1: for every modulus N > 1 and node index i < N, `connect` assigns
`next(i) = (i*i) mod N`; that successor is a single well-defined node
index in `[0, N)` (one outgoing edge, a total function); and `j` appears
in the predecessor list of `i` exactly when `next(j) = i`. -/
theorem claim_C1 (m i : ℕ) (hm : 1 < m) (hi : i < m) :
    ((connect m).getD i default).next = (((i * i) % m : ℕ) : Int) ∧
    (i * i) % m < m ∧
    (∃! t : ℕ, ((connect m).getD i default).next = ((t : ℕ) : Int) ∧ t < m) ∧
    (∀ j : ℕ, j ∈ ((connect m).getD i default).prev ↔ j < m ∧ (j * j) % m = i) := by
  have hm0 : 0 < m := by omega
  refine ⟨connect_next m i hi, Nat.mod_lt _ hm0, ?_, ?_⟩
  · refine ⟨(i * i) % m, ⟨connect_next m i hi, Nat.mod_lt _ hm0⟩, ?_⟩
    intro t ⟨ht, _⟩
    rw [connect_next m i hi] at ht
    omega
  · intro j
    rw [connect_prev m i hi]
    simp [List.mem_filter]

/-- C1 witness at N = 8, i = 3. -/
theorem claim_C1_witness :
    (1 < 8 ∧ 3 < 8) ∧
    (((connect 8).getD 3 default).next = (((3 * 3) % 8 : ℕ) : Int) ∧
      (3 * 3) % 8 < 8 ∧
      (∃! t : ℕ, ((connect 8).getD 3 default).next = ((t : ℕ) : Int) ∧ t < 8) ∧
      (∀ j : ℕ, j ∈ ((connect 8).getD 3 default).prev ↔ j < 8 ∧ (j * j) % 8 = 3)) :=
  ⟨by omega, claim_C1 8 3 (by omega) (by omega)⟩

/-- C2: for every modulus N > 1, `partition` succeeds and its component
sets are a true partition of `[0, N)`: a node belongs to some component
iff it is in `[0, N)`; two components sharing a node are the same
component; and every node in `[0, N)` carries exactly one component id. -/
theorem claim_C2 (m : ℕ) (hm : 1 < m) :
    ∃ st, partition m = .ok st ∧
      (∀ n : ℕ, (∃ t, t < st.subgraphs.length ∧ n ∈ st.subgraphs.getD t ∅) ↔ n < m) ∧
      (∀ t t' n : ℕ, t < st.subgraphs.length → t' < st.subgraphs.length →
        n ∈ st.subgraphs.getD t ∅ → n ∈ st.subgraphs.getD t' ∅ → t = t') ∧
      (∀ n, n < m → ∃! t : ℕ, t < st.subgraphs.length ∧ st.subg n = ((t : ℕ) : Int)) := by
  have hm0 : 0 < m := by omega
  obtain ⟨st, hok, ⟨hdom, hids, hmem⟩, hcl, hall⟩ := partition_sound m hm0
  refine ⟨st, hok, ?_, ?_, ?_⟩
  · intro n
    constructor
    · rintro ⟨t, ht, hn⟩
      have he := (hmem n t ht).mp hn
      apply hdom
      rw [he]
      omega
    · intro hn
      obtain ⟨t, ht, he⟩ := hids n (hall n hn)
      exact ⟨t, ht, (hmem n t ht).mpr he⟩
  · intro t t' n ht ht' hn hn'
    have he := (hmem n t ht).mp hn
    have he' := (hmem n t' ht').mp hn'
    rw [he] at he'
    omega
  · intro n hn
    obtain ⟨t, ht, he⟩ := hids n (hall n hn)
    refine ⟨t, ⟨ht, he⟩, ?_⟩
    intro t' ⟨_, he'⟩
    rw [he] at he'
    omega

/-- C2 witness at N = 8. -/
theorem claim_C2_witness :
    1 < 8 ∧
    ∃ st, partition 8 = .ok st ∧
      (∀ n : ℕ, (∃ t, t < st.subgraphs.length ∧ n ∈ st.subgraphs.getD t ∅) ↔ n < 8) ∧
      (∀ t t' n : ℕ, t < st.subgraphs.length → t' < st.subgraphs.length →
        n ∈ st.subgraphs.getD t ∅ → n ∈ st.subgraphs.getD t' ∅ → t = t') ∧
      (∀ n, n < 8 → ∃! t : ℕ, t < st.subgraphs.length ∧ st.subg n = ((t : ℕ) : Int)) :=
  ⟨by omega, claim_C2 8 (by omega)⟩

/-- C3: for every modulus N > 1, `partition` on the graph built by the
squaring edge rule never reaches an error branch: in particular the
"conflict between subgraphs" throw in `check_node` is unreachable. -/
theorem claim_C3 (m : ℕ) (hm : 1 < m) :
    (∃ st, partition m = .ok st) ∧ ∀ e : String, partition m ≠ .error e := by
  obtain ⟨st, hok, _, _, _⟩ := partition_sound m (by omega)
  refine ⟨⟨st, hok⟩, ?_⟩
  intro e he
  rw [hok] at he
  exact Except.noConfusion he

/-- C3 witness at N = 8. -/
theorem claim_C3_witness :
    1 < 8 ∧ ((∃ st, partition 8 = .ok st) ∧ ∀ e : String, partition 8 ≠ .error e) :=
  ⟨by omega, claim_C3 8 (by omega)⟩

/-- C4 counterexample: N = 1 satisfies N ≤ 1, yet the constructor's guard
does not throw: graph construction proceeds for N = 1 (and N = 0), so
inputs N ≤ 1 are not rejected. -/
theorem claim_C4_counterexample : (1 : Int) ≤ 1 ∧ graph_ctor_throws 1 = false := by
  constructor
  · omega
  · decide

/-- C4 (amended): the constructor rejects exactly the negative moduli;
N = 0 and N = 1 are accepted and construction proceeds, contrary to the
stated precondition N > 1; for N > 1 construction also proceeds. -/
theorem claim_C4 (m : Int) : graph_ctor_throws m = true ↔ m < 0 := by
  unfold graph_ctor_throws
  rw [Bool.or_eq_true, decide_eq_true_iff, decide_eq_true_iff]
  constructor
  · rintro (h | h)
    · exact h
    · exfalso
      unfold univ_attract_ at h
      norm_num at h
  · exact Or.inl

/-- C6: the factor list does contain 1, contrary to the claim that 1 is
explicitly excluded (and contrary to the function's own doc comment
"list of nontrivial factors"): for m = 6 the list is [0, 1, 2, 3]. -/
theorem claim_C6 :
    calculate_factors 6 = [0, 1, 2, 3] ∧ ∀ m : ℕ, 1 ∈ calculate_factors m := by
  constructor
  · rfl
  · intro m
    unfold calculate_factors
    simp

/-- C8: for N = 8, `connect` produces next = [0,1,4,1,0,1,4,1] and
`partition` succeeds with exactly the two components {0,2,4,6} and
{1,3,5,7}. -/
theorem claim_C8 :
    ((connect 8).map (fun nd => nd.next) = ([0, 1, 4, 1, 0, 1, 4, 1] : List Int)) ∧
    partitionOk 8 = true ∧
    partitionSubgraphs 8 = [({0, 2, 4, 6} : Finset ℕ), ({1, 3, 5, 7} : Finset ℕ)] := by
  refine ⟨by decide, by decide, by decide⟩

/-- C5: for distinct nodes i, j at distance r > 0 with displacement d and
unit vector u from i toward j, the pair evaluation contributes the
universal repulsion force -u/r² with potential 1/r, plus — exactly when
`next(i) = j` or `next(j) = i` — the Hookean edge attraction u·(r/k_edge)
with potential ½·r²/k_edge (k_edge = `edge_attract_` = 1.5), plus the sum
and factor attraction terms; the stored force on node j is the exact
opposite. -/
theorem claim_C5 (m i j : ℕ) (pos : ℕ → Vec3) (d u : Vec3) (r : ℝ)
    (hd : d = pos j - pos i) (hr : r = norm3 d) (hu : u = (1 / r) • d)
    (hij : i ≠ j) (hrpos : 0 < r) :
    (force_and_pot m i j pos).1
      = (-(1 / r ^ 2)) • u
        + (if nextF m i = j ∨ nextF m j = i then (r / edge_attract_) • u else 0)
        + (sum_attract m i j u r).1 + (factor_attract m i j u r).1 ∧
    (force_and_pot m i j pos).2
      = 1 / r
        + (if nextF m i = j ∨ nextF m j = i then r ^ 2 / (2 * edge_attract_) else 0)
        + (sum_attract m i j u r).2 + (factor_attract m i j u r).2 ∧
    forcesMat m pos j i = -(forcesMat m pos i j) := by
  subst hd
  subst hr
  subst hu
  refine ⟨?_, ?_, forcesMat_antisymm m pos i j⟩
  · unfold force_and_pot
    rw [if_neg hij]
    dsimp only
    simp only [Prod.fst_add]
    unfold repulsion
    dsimp only
    have h1 : -(1 / (norm3 (pos j - pos i) * norm3 (pos j - pos i)))
        = -(1 / norm3 (pos j - pos i) ^ 2) := by ring
    rw [h1]
    by_cases hcond : nextF m i = j ∨ nextF m j = i
    · unfold edge_attract attract
      rw [if_pos hcond, if_pos hcond]
      dsimp only
      have h2 : 1 / edge_attract_ * norm3 (pos j - pos i)
          = norm3 (pos j - pos i) / edge_attract_ := by ring
      rw [h2]
    · unfold edge_attract
      rw [if_neg hcond, if_neg hcond]
  · unfold force_and_pot
    rw [if_neg hij]
    dsimp only
    simp only [Prod.snd_add]
    unfold repulsion
    dsimp only
    by_cases hcond : nextF m i = j ∨ nextF m j = i
    · unfold edge_attract attract
      rw [if_pos hcond, if_pos hcond]
      dsimp only
      have h2 : 0.5 * (1 / edge_attract_) * norm3 (pos j - pos i) * norm3 (pos j - pos i)
          = norm3 (pos j - pos i) ^ 2 / (2 * edge_attract_) := by ring
      rw [h2]
    · unfold edge_attract
      rw [if_neg hcond, if_neg hcond]

theorem wpos_dist_pos : 0 < norm3 (wpos 1 - wpos 0) := by
  have hne : norm3 (wpos 1 - wpos 0) ≠ 0 := by
    rw [Ne, norm3_eq_zero_iff, sub_eq_zero]
    exact wpos_inj 1 0 (by omega)
  exact lt_of_le_of_ne (norm3_nonneg _) (Ne.symm hne)

/-- C5 witness at m = 2, i = 0, j = 1, with node k at (k, 0, 0). -/
theorem claim_C5_witness :
    ((0 : ℕ) ≠ 1 ∧ 0 < norm3 (wpos 1 - wpos 0)) ∧
    ((force_and_pot 2 0 1 wpos).1
      = (-(1 / norm3 (wpos 1 - wpos 0) ^ 2)) • ((1 / norm3 (wpos 1 - wpos 0)) • (wpos 1 - wpos 0))
        + (if nextF 2 0 = 1 ∨ nextF 2 1 = 0
            then (norm3 (wpos 1 - wpos 0) / edge_attract_) •
              ((1 / norm3 (wpos 1 - wpos 0)) • (wpos 1 - wpos 0))
            else 0)
        + (sum_attract 2 0 1 ((1 / norm3 (wpos 1 - wpos 0)) • (wpos 1 - wpos 0))
            (norm3 (wpos 1 - wpos 0))).1
        + (factor_attract 2 0 1 ((1 / norm3 (wpos 1 - wpos 0)) • (wpos 1 - wpos 0))
            (norm3 (wpos 1 - wpos 0))).1 ∧
    (force_and_pot 2 0 1 wpos).2
      = 1 / norm3 (wpos 1 - wpos 0)
        + (if nextF 2 0 = 1 ∨ nextF 2 1 = 0
            then norm3 (wpos 1 - wpos 0) ^ 2 / (2 * edge_attract_) else 0)
        + (sum_attract 2 0 1 ((1 / norm3 (wpos 1 - wpos 0)) • (wpos 1 - wpos 0))
            (norm3 (wpos 1 - wpos 0))).2
        + (factor_attract 2 0 1 ((1 / norm3 (wpos 1 - wpos 0)) • (wpos 1 - wpos 0))
            (norm3 (wpos 1 - wpos 0))).2 ∧
    forcesMat 2 wpos 1 0 = -(forcesMat 2 wpos 0 1)) :=
  ⟨⟨by omega, wpos_dist_pos⟩,
    claim_C5 2 0 1 wpos (wpos 1 - wpos 0)
      ((1 / norm3 (wpos 1 - wpos 0)) • (wpos 1 - wpos 0)) (norm3 (wpos 1 - wpos 0))
      rfl rfl rfl (by omega) wpos_dist_pos⟩

/-- C7 counterexample: two distinct nodes at the same position make the
evaluation divide by a zero distance — the only case the code guards is
i = j, so the claimed guard on r = 0 does not exist. -/
theorem claim_C7_counterexample : force_divzero 2 0 1 (fun _ => 0) := by
  refine ⟨by omega, ?_⟩
  have h0 : (fun _ : ℕ => (0 : Vec3)) 1 - (fun _ : ℕ => (0 : Vec3)) 0 = 0 := by
    simp
  rw [h0]
  exact (norm3_eq_zero_iff 0).mpr rfl

/-- C7 (amended): the code guards only the case i = j; for distinct
coincident nodes the evaluation divides by zero.  When no two nodes share
a position, the force-field evaluation never divides by zero. -/
theorem claim_C7 (m i j : ℕ) (pos : ℕ → Vec3)
    (h : ∀ a b : ℕ, a ≠ b → pos a ≠ pos b) : ¬ force_divzero m i j pos := by
  rintro ⟨hij, hr⟩
  rw [norm3_eq_zero_iff, sub_eq_zero] at hr
  exact h j i (Ne.symm hij) hr

/-- C7 witness: injective positions admit no division by zero. -/
theorem claim_C7_witness :
    (∀ a b : ℕ, a ≠ b → wpos a ≠ wpos b) ∧ ¬ force_divzero 2 0 1 wpos :=
  ⟨wpos_inj, claim_C7 2 0 1 wpos wpos_inj⟩

/-- C9: with no two nodes coincident, the total potential is bounded below
by the repulsion-only potential (the attraction terms are non-negative),
every pairwise distance is positive (so each repulsion term is finite),
the potential dominates each single pair's 1/r, and the potential grows
without bound as any pair's distance approaches 0. -/
theorem claim_C9 (m : ℕ) (pos : ℕ → Vec3) (hm : 1 < m)
    (hdist : ∀ i, i < m → ∀ j, j < m → i ≠ j → pos i ≠ pos j) :
    repulsionPotential m pos ≤ potential m pos ∧
    (∀ i, i < m → ∀ j, j < m → i ≠ j → 0 < norm3 (pos j - pos i)) ∧
    (∀ i, i < m → ∀ j, j < m → i ≠ j →
      1 / norm3 (pos j - pos i) ≤ potential m pos) ∧
    (∀ C : ℝ, ∃ δ : ℝ, 0 < δ ∧ ∀ pos' : ℕ → Vec3, ∀ i, i < m → ∀ j, j < m →
      i ≠ j → 0 < norm3 (pos' j - pos' i) → norm3 (pos' j - pos' i) ≤ δ →
      C ≤ potential m pos') := by
  refine ⟨potential_ge_repulsion m pos, ?_, ?_, ?_⟩
  · intro i hi j hj hij
    have hne : norm3 (pos j - pos i) ≠ 0 := by
      rw [Ne, norm3_eq_zero_iff, sub_eq_zero]
      exact fun he => hdist i hi j hj hij he.symm
    exact lt_of_le_of_ne (norm3_nonneg _) (Ne.symm hne)
  · intro i hi j hj hij
    exact potential_ge_inv_dist m pos i j hi hj hij
  · intro C
    have hmax : (0 : ℝ) < max C 1 := lt_of_lt_of_le zero_lt_one (le_max_right C 1)
    refine ⟨1 / max C 1, by positivity, ?_⟩
    intro pos' i hi j hj hij hrpos hrle
    have h1 : 1 / (1 / max C 1) ≤ 1 / norm3 (pos' j - pos' i) :=
      one_div_le_one_div_of_le hrpos hrle
    rw [one_div_one_div] at h1
    calc C ≤ max C 1 := le_max_left C 1
      _ ≤ 1 / norm3 (pos' j - pos' i) := h1
      _ ≤ potential m pos' := potential_ge_inv_dist m pos' i j hi hj hij

/-- C9 witness at m = 2 with node k at (k, 0, 0). -/
theorem claim_C9_witness :
    (1 < 2 ∧ ∀ i, i < 2 → ∀ j, j < 2 → i ≠ j → wpos i ≠ wpos j) ∧
    (repulsionPotential 2 wpos ≤ potential 2 wpos ∧
    (∀ i, i < 2 → ∀ j, j < 2 → i ≠ j → 0 < norm3 (wpos j - wpos i)) ∧
    (∀ i, i < 2 → ∀ j, j < 2 → i ≠ j →
      1 / norm3 (wpos j - wpos i) ≤ potential 2 wpos) ∧
    (∀ C : ℝ, ∃ δ : ℝ, 0 < δ ∧ ∀ pos' : ℕ → Vec3, ∀ i, i < 2 → ∀ j, j < 2 →
      i ≠ j → 0 < norm3 (pos' j - pos' i) → norm3 (pos' j - pos' i) ≤ δ →
      C ≤ potential 2 pos')) :=
  ⟨⟨by omega, fun i _ j _ hij => wpos_inj i j hij⟩,
    claim_C9 2 wpos (by omega) (fun i _ j _ hij => wpos_inj i j hij)⟩

/-- C10: for pairwise-distinct positions, the stored pairwise force table
is antisymmetric — the entry for (j, i) is the exact negative of the entry
for (i, j) — and consequently the vector sum of all per-node net forces is
zero. -/
theorem claim_C10 (m : ℕ) (pos : ℕ → Vec3)
    (hdist : ∀ i, i < m → ∀ j, j < m → i ≠ j → pos i ≠ pos j) :
    (∀ i j, forcesMat m pos j i = -(forcesMat m pos i j)) ∧
    ∑ i ∈ Finset.range m, netForce m pos i = 0 :=
  ⟨fun i j => forcesMat_antisymm m pos i j, netForce_total_zero m pos⟩

/-- C10 witness at m = 2 with node k at (k, 0, 0). -/
theorem claim_C10_witness :
    (∀ i, i < 2 → ∀ j, j < 2 → i ≠ j → wpos i ≠ wpos j) ∧
    ((∀ i j, forcesMat 2 wpos j i = -(forcesMat 2 wpos i j)) ∧
      ∑ i ∈ Finset.range 2, netForce 2 wpos i = 0) :=
  ⟨fun i _ j _ hij => wpos_inj i j hij,
    claim_C10 2 wpos (fun i _ j _ hij => wpos_inj i j hij)⟩

end Modgraph
